import Mathlib

/-!
Verification of the metrics-and-screening engine of the stock scanner.

The development shallowly embeds stock_scanner.py.  Prices and derived
metrics are modelled as rationals; the floating point NaN sentinel that
pandas uses for a missing value is modelled as an Option that is none.
Per-ticker bar histories are lists ordered by date ascending, matching
the sort_values call on (ticker, date) at the top of run_scan.

Pandas facts the embedding relies on, noted where they are used:
rolling(window=W) defaults min_periods to W, so a rolling statistic is
NaN until W observations exist; comparisons with NaN are False; isin on
NaN is False for a list of strings; Series.quantile uses linear
interpolation over the non-NaN values and is NaN on an all-NaN series;
groupby sorts its keys; merge defaults to an inner join.
-/

/-- Bar: one daily open/high/low/close/volume record of a ticker, a row of
the daily_data table.  The open column is never read by the scan and is
omitted; the date only orders the list and is kept implicit in the list
order. -/
structure Bar where
  high : ℚ
  low : ℚ
  close : ℚ
  volume : ℚ
deriving DecidableEq

/-- TickerProfile: a row of the tickers_exchange table as selected in
run_scan.  The sector and industry may be missing (NULL becomes NaN in
pandas), hence Option. -/
structure TickerProfile where
  ticker : String
  exchange : String
  asset_class : String
  sector : Option String
  industry : Option String
deriving DecidableEq

/-- DerivedRow: the computed columns run_scan attaches to one bar of one
ticker.  A rolling statistic over a window with too little history is
none, the embedding of the NaN that pandas produces below min_periods. -/
structure DerivedRow where
  close : ℚ
  dollar_volume : ℚ
  daily_range_factor : ℚ
  ma200 : Option ℚ
  avg_dollar_volume : Option ℚ
  adr_percent : Option ℚ
  gain_1m : Option ℚ
  gain_3m : Option ℚ
  gain_6m : Option ℚ
deriving DecidableEq

/-- Snapshot: the most recent derived row of a ticker merged with its
profile row, the unit the filter and the ranker operate on.  These are the
columns of merged_data that the rest of run_scan reads. -/
structure Snapshot where
  ticker : String
  close : ℚ
  ma200 : Option ℚ
  avg_dollar_volume : Option ℚ
  adr_percent : Option ℚ
  gain_1m : Option ℚ
  gain_3m : Option ℚ
  gain_6m : Option ℚ
  exchange : String
  asset_class : String
  sector : Option String
  industry : Option String
deriving DecidableEq

/-- ScanConfig: the module level scan parameters of stock_scanner.py. -/
structure ScanConfig where
  minDollarVolume : ℚ
  minAdrPercent : ℚ
  minClosePrice : ℚ
  avgVolDays : Nat
  adrDays : Nat
  gainDays1m : Nat
  gainDays3m : Nat
  gainDays6m : Nat
  maDaysLong : Nat
  gainPercentile1m : ℚ
  gainPercentile3m : ℚ
  gainPercentile6m : ℚ
  useMa200Filter : Bool
  excludedSectors : List String
  excludedIndustries : List String
deriving DecidableEq

/-- defaultConfig: the constant values at the top of stock_scanner.py. -/
def defaultConfig : ScanConfig :=
  { minDollarVolume := 5000000
    minAdrPercent := 7
    minClosePrice := 2
    avgVolDays := 1
    adrDays := 20
    gainDays1m := 21
    gainDays3m := 63
    gainDays6m := 126
    maDaysLong := 200
    gainPercentile1m := 1/2
    gainPercentile3m := 3/5
    gainPercentile6m := 3/5
    useMa200Filter := true
    excludedSectors := []
    excludedIndustries := ["Biotechnology"] }

/-- epsilon: the 1e-9 guard added to the low in the daily range factor. -/
def epsilon : ℚ := 1 / 1000000000

/-- windowSlice w xs i is the trailing window of width w ending at index i:
the last w elements of the prefix of length i + 1. -/
def windowSlice (w : Nat) (xs : List ℚ) (i : Nat) : List ℚ :=
  (xs.take (i + 1)).drop (i + 1 - w)

/-- listMin of a list of rationals, 0 on the empty list (only applied to
windows of positive width). -/
def listMin : List ℚ → ℚ
  | [] => 0
  | x :: xs => xs.foldl min x

/-- rollingAt w f xs i embeds a pandas rolling computation of window w at
row i of the series xs: pandas rolling(window=w) defaults min_periods to w,
so the value exists exactly when the row has at least w prior-and-current
observations, and is then f of the trailing window; otherwise it is NaN,
embedded as none. -/
def rollingAt (w : Nat) (f : List ℚ → ℚ) (xs : List ℚ) (i : Nat) : Option ℚ :=
  if w ≤ i + 1 then some (f (windowSlice w xs i)) else none

/-- closes of a bar history, in date order. -/
def closes (bars : List Bar) : List ℚ := bars.map (fun b => b.close)

/-- lows of a bar history, in date order. -/
def lows (bars : List Bar) : List ℚ := bars.map (fun b => b.low)

/-- dollarVolumes: the dollar_volume column, close times volume. -/
def dollarVolumes (bars : List Bar) : List ℚ := bars.map (fun b => b.close * b.volume)

/-- rangeFactors: the daily_range_factor column, high over (low plus the
epsilon guard). -/
def rangeFactors (bars : List Bar) : List ℚ := bars.map (fun b => b.high / (b.low + epsilon))

/-- derivedRowAt cfg bars i: the derived columns run_scan computes at row i
of one ticker, line by line.  ma200 is the rolling mean of close over
maDaysLong bars; avg_dollar_volume the rolling mean of dollar_volume over
avgVolDays bars; adr_percent is (rolling sum of daily_range_factor over
adrDays divided by adrDays, minus 1) times 100; each gain is (close over
the rolling min of low, minus 1) times 100, and is NaN exactly when the
rolling min is (close over NaN is NaN). -/
def derivedRowAt (cfg : ScanConfig) (bars : List Bar) (i : Nat) : DerivedRow :=
  { close := (closes bars).getD i 0
    dollar_volume := (dollarVolumes bars).getD i 0
    daily_range_factor := (rangeFactors bars).getD i 0
    ma200 := rollingAt cfg.maDaysLong (fun w => w.sum / (cfg.maDaysLong : ℚ)) (closes bars) i
    avg_dollar_volume :=
      rollingAt cfg.avgVolDays (fun w => w.sum / (cfg.avgVolDays : ℚ)) (dollarVolumes bars) i
    adr_percent :=
      rollingAt cfg.adrDays (fun w => (w.sum / (cfg.adrDays : ℚ) - 1) * 100) (rangeFactors bars) i
    gain_1m :=
      rollingAt cfg.gainDays1m (fun w => ((closes bars).getD i 0 / listMin w - 1) * 100) (lows bars) i
    gain_3m :=
      rollingAt cfg.gainDays3m (fun w => ((closes bars).getD i 0 / listMin w - 1) * 100) (lows bars) i
    gain_6m :=
      rollingAt cfg.gainDays6m (fun w => ((closes bars).getD i 0 / listMin w - 1) * 100) (lows bars) i }

/-- derivedSeriesOf cfg bars: the DerivedSeries of one ticker, one derived
row per bar, date ascending. -/
def derivedSeriesOf (cfg : ScanConfig) (bars : List Bar) : List DerivedRow :=
  (List.range bars.length).map (derivedRowAt cfg bars)

/-- mkSnapshot joins the latest derived row of a ticker with one of its
profile rows, as the merge on ticker does column-wise. -/
def mkSnapshot (t : String) (r : DerivedRow) (p : TickerProfile) : Snapshot :=
  { ticker := t
    close := r.close
    ma200 := r.ma200
    avg_dollar_volume := r.avg_dollar_volume
    adr_percent := r.adr_percent
    gain_1m := r.gain_1m
    gain_3m := r.gain_3m
    gain_6m := r.gain_6m
    exchange := p.exchange
    asset_class := p.asset_class
    sector := p.sector
    industry := p.industry }

/-- latestRows cfg history embeds groupby(ticker).last(): the final derived
row of every ticker that has at least one bar.  GroupBy.last takes the last
non-null entry per column, which here equals the final row: every derived
column is null on an initial segment of the series and defined from the
first full window onward, so a column null at the final row is null
everywhere. -/
def latestRows (cfg : ScanConfig) (history : List (String × List Bar)) :
    List (String × DerivedRow) :=
  history.filterMap (fun g => ((derivedSeriesOf cfg g.2).getLast?).map (fun r => (g.1, r)))

/-- mergeOnTicker embeds pd.merge(latest_data, ticker_info_df, on=ticker)
with its default inner join: each latest row pairs with every profile row
of the same ticker, and a latest row with no profile row is dropped. -/
def mergeOnTicker (profiles : List TickerProfile) :
    List (String × DerivedRow) → List Snapshot
  | [] => []
  | tr :: rest =>
      (profiles.filter (fun p => p.ticker == tr.1)).map (mkSnapshot tr.1 tr.2) ++
        mergeOnTicker profiles rest

/-- snapshots cfg history profiles is merged_data: the Snapshot set handed
to the filter stages. -/
def snapshots (cfg : ScanConfig) (history : List (String × List Bar))
    (profiles : List TickerProfile) : List Snapshot :=
  mergeOnTicker profiles (latestRows cfg history)

/-- optGe o t embeds the pandas comparison (column >= t): False when the
value is NaN. -/
def optGe (o : Option ℚ) (t : ℚ) : Bool :=
  match o with
  | some v => decide (t ≤ v)
  | none => false

/-- passesHardThresholds: the stage 1 conjunction of run_scan, keeping a
snapshot when avg_dollar_volume, adr_percent and close clear their
minimums; a NaN avg_dollar_volume or adr_percent compares False. -/
def passesHardThresholds (cfg : ScanConfig) (s : Snapshot) : Bool :=
  optGe s.avg_dollar_volume cfg.minDollarVolume &&
    optGe s.adr_percent cfg.minAdrPercent &&
    decide (cfg.minClosePrice ≤ s.close)

/-- hardThresholdStage: filtered_stocks after the volume, ADR and price
thresholds. -/
def hardThresholdStage (cfg : ScanConfig) (l : List Snapshot) : List Snapshot :=
  l.filter (passesHardThresholds cfg)

/-- optIn o xs embeds Series.isin on a possibly-NaN string column: a NaN
entry is in no list of strings. -/
def optIn (o : Option String) (xs : List String) : Bool :=
  match o with
  | some v => xs.contains v
  | none => false

/-- categoricalStage: the sector exclusion then the industry exclusion,
each applied only when its configured list is nonempty, exactly as the two
guarded filters in run_scan. -/
def categoricalStage (cfg : ScanConfig) (l : List Snapshot) : List Snapshot :=
  let l1 := if cfg.excludedSectors.isEmpty then l
    else l.filter (fun s => !(optIn s.sector cfg.excludedSectors))
  if cfg.excludedIndustries.isEmpty then l1
  else l1.filter (fun s => !(optIn s.industry cfg.excludedIndustries))

/-- passesTrend: close at or above ma200, or ma200 NaN (the new-issue
exemption): the disjunction (close >= ma200) | ma200.isna() of run_scan. -/
def passesTrend (s : Snapshot) : Bool :=
  match s.ma200 with
  | some m => decide (m ≤ s.close)
  | none => true

/-- trendStage: the optional MA200 filter, applied only when the toggle is
on. -/
def trendStage (cfg : ScanConfig) (l : List Snapshot) : List Snapshot :=
  if cfg.useMa200Filter then l.filter passesTrend else l

/-- strLt on char lists: the lexicographic order by unicode code point, as
Python compares strings when pandas groupby sorts its keys. -/
def strLt : List Char → List Char → Bool
  | [], [] => false
  | [], _ :: _ => true
  | _ :: _, [] => false
  | a :: as, b :: bs =>
      if a.toNat < b.toNat then true
      else if a.toNat = b.toNat then strLt as bs else false

/-- strLe: the reflexive closure of strLt on strings. -/
def strLe (a b : String) : Bool := !(strLt b.data a.data)

/-- dedupKeys seen xs: the distinct members of xs in order of first
occurrence, skipping those already in seen. -/
def dedupKeys (seen : List String) : List String → List String
  | [] => []
  | x :: xs => if x ∈ seen then dedupKeys seen xs else x :: dedupKeys (x :: seen) xs

/-- assetClasses: the distinct asset_class values of the result set in
ascending order, the keys of groupby(asset_class), which sorts its keys. -/
def assetClasses (l : List Snapshot) : List String :=
  List.insertionSort (fun a b => strLe a b = true) (dedupKeys [] (l.map (fun s => s.asset_class)))

/-- formatEntry: one watchlist entry, exchange:ticker. -/
def formatEntry (s : Snapshot) : String := s.exchange ++ ":" ++ s.ticker

/-- joinC embeds str.join with a comma separator. -/
def joinC : List String → String
  | [] => ""
  | [x] => x
  | x :: y :: rest => x ++ "," ++ joinC (y :: rest)

/-- watchlistParts: one part per asset class in key order, each part the
###<asset_class>s delimiter, a comma, and the comma-joined entries of that
class in result order. -/
def watchlistParts (l : List Snapshot) : List String :=
  (assetClasses l).map (fun ac =>
    "###" ++ ac ++ "s" ++ "," ++ joinC ((l.filter (fun s => s.asset_class == ac)).map formatEntry))

/-- watchlistString: the parts joined with commas into one flat line. -/
def watchlistString (l : List Snapshot) : String := joinC (watchlistParts l)

/-- generate_tradingview_watchlist embeds the exporter: on an empty result
it only reports and writes nothing (none); otherwise it produces the
watchlist line (the file write itself belongs to the external sink). -/
def generate_tradingview_watchlist (l : List Snapshot) : Option String :=
  if l.isEmpty then none else some (watchlistString l)

/-- sortedAsc: the defined gain values in ascending order, the order
Series.quantile interpolates over. -/
def sortedAsc (xs : List ℚ) : List ℚ := List.insertionSort (fun a b => a ≤ b) xs

/-- floorNat q: the floor of a nonnegative rational as a Nat (num and den
of a normalized rational, truncating division is the floor for a
nonnegative numerator). -/
def floorNat (q : ℚ) : Nat := (q.num / (q.den : ℤ)).toNat

/-- vAt v i: element i of v with the index clamped into range (the final
element for an overlarge index, 0 on the empty list; quantile only applies
it to nonempty lists and in-range positions). -/
def vAt (v : List ℚ) (i : Nat) : ℚ := v.getD (min i (v.length - 1)) 0

/-- interp v h: linear interpolation of the sorted values v at fractional
position h, the interpolation=linear rule of Series.quantile: with
lo = floor h, the value is v[lo] + (h - lo) * (v[lo+1] - v[lo]). -/
def interp (v : List ℚ) (h : ℚ) : ℚ :=
  vAt v (floorNat h) + (h - (floorNat h : ℚ)) * (vAt v (floorNat h + 1) - vAt v (floorNat h))

/-- quantile xs q embeds Series.quantile(q) on the series whose non-NaN
values are xs: NaN (none) when no value is defined, else linear
interpolation at position q * (n - 1) of the sorted values. -/
def quantile (xs : List ℚ) (q : ℚ) : Option ℚ :=
  if xs.isEmpty then none else some (interp (sortedAsc xs) (q * ((xs.length : ℚ) - 1)))

/-- horizonThreshold get p l: the quantile threshold of one gain horizon
over the filtered set l, computed over the defined gain values only, as
Series.quantile skips NaNs. -/
def horizonThreshold (get : Snapshot → Option ℚ) (p : ℚ) (l : List Snapshot) : Option ℚ :=
  quantile (l.filterMap get) p

/-- qualifies g t embeds the pandas comparison gain >= threshold: False
when either side is NaN. -/
def qualifies (g t : Option ℚ) : Bool :=
  match g, t with
  | some gv, some tv => decide (tv ≤ gv)
  | _, _ => false

/-- topGainers get t l: the snapshots of l whose gain under get is defined
and at least the threshold t (a NaN gain or a NaN threshold never
qualifies). -/
def topGainers (get : Snapshot → Option ℚ) (t : Option ℚ) (l : List Snapshot) : List Snapshot :=
  l.filter (fun s => qualifies (get s) t)

/-- dedupByTicker seen l embeds drop_duplicates(subset=[ticker]): the first
snapshot of each ticker is kept, later ones dropped; seen accumulates the
tickers already emitted. -/
def dedupByTicker (seen : List String) : List Snapshot → List Snapshot
  | [] => []
  | s :: rest =>
      if s.ticker ∈ seen then dedupByTicker seen rest
      else s :: dedupByTicker (s.ticker :: seen) rest

/-- gainLe a b: snapshot a sorts no later than snapshot b in the final
sort_values(by=gain_1m, ascending=False): a defined 1-month gain of a is at
least that of b, and a NaN 1-month gain sorts last. -/
def gainLe (a b : Snapshot) : Bool :=
  match a.gain_1m, b.gain_1m with
  | some u, some v => decide (v ≤ u)
  | some _, none => true
  | none, none => true
  | none, some _ => false

/-- gainOrder: gainLe as a relation, for insertionSort. -/
def gainOrder (a b : Snapshot) : Prop := gainLe a b = true

instance : DecidableRel gainOrder := fun a b => instDecidableEqBool (gainLe a b) true

/-- rankResults cfg l: the PercentileRanker on the filtered snapshot set l:
one quantile threshold per horizon over the defined gains of l, the three
qualifier sets concatenated, duplicates dropped by ticker keeping the first
occurrence, and the result ordered by 1-month gain descending.  The pandas
sort is unstable and leaves the order of ties unspecified; the embedding
fixes the stable order, and the theorems about it concern membership and
sortedness only. -/
def rankResults (cfg : ScanConfig) (l : List Snapshot) : List Snapshot :=
  List.insertionSort gainOrder (dedupByTicker []
    (topGainers (fun s => s.gain_1m) (horizonThreshold (fun s => s.gain_1m) cfg.gainPercentile1m l) l ++
     topGainers (fun s => s.gain_3m) (horizonThreshold (fun s => s.gain_3m) cfg.gainPercentile3m l) l ++
     topGainers (fun s => s.gain_6m) (horizonThreshold (fun s => s.gain_6m) cfg.gainPercentile6m l) l))

/-- StoreData: what run_scan loads from the database: the bar history
grouped by ticker (date ascending within a ticker) and the profile rows. -/
structure StoreData where
  history : List (String × List Bar)
  profiles : List TickerProfile
deriving DecidableEq

/-- ScanOutcome: how one run of run_scan ends.  The loadFailure, emptyDatabase
and noStocksPassedFilters ends report and return before any later stage
runs; success carries the ranked results and the export of the watchlist
generator. -/
inductive ScanOutcome where
  | loadFailure (msg : String)
  | emptyDatabase
  | noStocksPassedFilters
  | success (results : List Snapshot) (watchlist : Option String)
deriving DecidableEq

/-- run_scan embeds the control flow of run_scan: a load failure returns at
once with the failure message and nothing is computed; an empty database
returns before metrics; metrics, the latest-row merge and the hard
thresholds run next, and an empty hard-threshold stage returns before the
categorical, trend and ranking stages; otherwise the remaining stages and
the exporter run. -/
def run_scan (cfg : ScanConfig) (load : Except String StoreData) : ScanOutcome :=
  match load with
  | Except.error e => ScanOutcome.loadFailure e
  | Except.ok data =>
      if data.history.all (fun g => g.2.isEmpty) then ScanOutcome.emptyDatabase
      else
        let filtered1 := hardThresholdStage cfg (snapshots cfg data.history data.profiles)
        if filtered1.isEmpty then ScanOutcome.noStocksPassedFilters
        else
          let filtered := trendStage cfg (categoricalStage cfg filtered1)
          let final := rankResults cfg filtered
          ScanOutcome.success final (generate_tradingview_watchlist final)

/-- resultsOf: the RankedResult an outcome carries; empty for every ending
that stops before ranking. -/
def resultsOf : ScanOutcome → List Snapshot
  | ScanOutcome.success r _ => r
  | _ => []

/-- watchlistOf: the exported watchlist of an outcome; none when nothing
was exported. -/
def watchlistOf : ScanOutcome → Option String
  | ScanOutcome.success _ w => w
  | _ => none

/-- specQual get p l s states qualification in one horizon in the words of
the specification: the gain of s under get is defined and at least the
quantile threshold of that horizon, the quantile being computed over only
the defined gain values of the filtered set l. -/
def specQual (get : Snapshot → Option ℚ) (p : ℚ) (l : List Snapshot) (s : Snapshot) : Prop :=
  ∃ t g, horizonThreshold get p l = some t ∧ get s = some g ∧ t ≤ g

/-- specWatchlistTokens l follows the words of the export contract: group
the entries by asset class, format each entry as exchange:ticker, and
prefix each group with its ###<asset_class>s delimiter token; the groups
are in ascending asset class order (the order groupby yields them in). -/
def specWatchlistTokens (l : List Snapshot) : List String :=
  (assetClasses l).flatMap (fun ac =>
    ("###" ++ ac ++ "s") :: (l.filter (fun s => s.asset_class == ac)).map formatEntry)

/-- specWatchlistLine l: the spec-side export: nothing on an empty result,
else all tokens joined with commas into one flat line. -/
def specWatchlistLine (l : List Snapshot) : Option String :=
  if l.isEmpty then none else some (joinC (specWatchlistTokens l))

/-- rollingSpec w xs i f o: the insufficient-history contract of one
rolling metric: the value o is missing exactly when row i has fewer than w
prior-and-current bars, and with at least w bars it is f of the trailing
window of width w. -/
def rollingSpec (w : Nat) (xs : List ℚ) (i : Nat) (f : List ℚ → ℚ) (o : Option ℚ) : Prop :=
  (o = none ↔ i + 1 < w) ∧ (w ≤ i + 1 → o = some (f ((xs.drop (i + 1 - w)).take w)))

/-- smallConfig: a configuration with small windows, used to exercise the
definitions on short concrete histories. -/
def smallConfig : ScanConfig :=
  { minDollarVolume := 1
    minAdrPercent := 1
    minClosePrice := 1
    avgVolDays := 1
    adrDays := 2
    gainDays1m := 2
    gainDays3m := 3
    gainDays6m := 4
    maDaysLong := 2
    gainPercentile1m := 1/2
    gainPercentile3m := 1/2
    gainPercentile6m := 1/2
    useMa200Filter := true
    excludedSectors := []
    excludedIndustries := [] }

/-- bar0: a concrete bar. -/
def bar0 : Bar := { high := 10, low := 5, close := 8, volume := 1000 }

/-- bars2: a concrete two-bar history. -/
def bars2 : List Bar :=
  [{ high := 10, low := 5, close := 8, volume := 100 },
   { high := 12, low := 6, close := 9, volume := 100 }]

/-- snapX: a concrete NASDAQ stock snapshot. -/
def snapX : Snapshot :=
  { ticker := "X"
    close := 10
    ma200 := some 5
    avg_dollar_volume := some 6000000
    adr_percent := some 8
    gain_1m := some 20
    gain_3m := some 30
    gain_6m := some 40
    exchange := "NASDAQ"
    asset_class := "Stock"
    sector := some "Technology"
    industry := some "Software" }

/-- snapY: a concrete AMEX fund snapshot with no sector or industry. -/
def snapY : Snapshot :=
  { ticker := "Y"
    close := 3
    ma200 := none
    avg_dollar_volume := some 7000000
    adr_percent := some 9
    gain_1m := some 5
    gain_3m := none
    gain_6m := none
    exchange := "AMEX"
    asset_class := "Fund"
    sector := none
    industry := none }

/-- optGe_iff: the embedded NaN-aware comparison holds exactly when the
value is defined and clears the threshold. -/
theorem optGe_iff (o : Option ℚ) (t : ℚ) : optGe o t = true ↔ ∃ v, o = some v ∧ t ≤ v := by
  cases o <;> simp [optGe]

/-- C3.  The hard-threshold stage keeps a snapshot exactly when its
avg_dollar_volume and adr_percent are defined and clear their minimums and
its close clears the minimum price; a snapshot with a missing
avg_dollar_volume or adr_percent is dropped by this stage. -/
theorem hardThresholdStage_spec (cfg : ScanConfig) (l : List Snapshot) (s : Snapshot) :
    (s ∈ hardThresholdStage cfg l ↔
      s ∈ l ∧ (∃ v, s.avg_dollar_volume = some v ∧ cfg.minDollarVolume ≤ v) ∧
        (∃ v, s.adr_percent = some v ∧ cfg.minAdrPercent ≤ v) ∧
        cfg.minClosePrice ≤ s.close) ∧
    ((s.avg_dollar_volume = none ∨ s.adr_percent = none) → s ∉ hardThresholdStage cfg l) := by
  constructor
  · simp [hardThresholdStage, List.mem_filter, passesHardThresholds, optGe_iff,
      Bool.and_eq_true, decide_eq_true_iff, and_assoc]
  · intro h hmem
    obtain ⟨-, hp⟩ := List.mem_filter.mp hmem
    rcases h with h | h <;> simp [passesHardThresholds, optGe, h] at hp

/-- getLast?_derivedSeriesOf: the last derived row of a nonempty history is
the derived row at the final index. -/
theorem getLast?_derivedSeriesOf (cfg : ScanConfig) (bars : List Bar) (h : bars ≠ []) :
    (derivedSeriesOf cfg bars).getLast? = some (derivedRowAt cfg bars (bars.length - 1)) := by
  unfold derivedSeriesOf
  rw [List.getLast?_map]
  cases bars with
  | nil => simp at h
  | cons b bs =>
      rw [List.length_cons, List.range_succ, List.getLast?_concat]
      simp

/-- C4.  With the toggle on, the trend stage keeps a snapshot exactly when
its close is at least its ma200 or its ma200 is missing; with the toggle
off the stage removes nothing; and the last derived row of any ticker with
fewer than maDaysLong bars has no ma200, so its snapshot always passes the
trend test. -/
theorem trendStage_spec (cfg : ScanConfig) (l : List Snapshot) (s : Snapshot)
    (t : String) (bars : List Bar) (p : TickerProfile) :
    (cfg.useMa200Filter = true →
      (s ∈ trendStage cfg l ↔
        s ∈ l ∧ (s.ma200 = none ∨ ∃ m, s.ma200 = some m ∧ m ≤ s.close))) ∧
    (cfg.useMa200Filter = false → trendStage cfg l = l) ∧
    (bars ≠ [] → bars.length < cfg.maDaysLong →
      ∀ r, (derivedSeriesOf cfg bars).getLast? = some r →
        passesTrend (mkSnapshot t r p) = true) := by
  refine ⟨fun hon => ?_, fun hoff => by simp [trendStage, hoff], ?_⟩
  · rw [trendStage, if_pos hon, List.mem_filter]
    rcases hm : s.ma200 with _ | m <;> simp [passesTrend, hm]
  · intro hne hlt r hr
    rw [getLast?_derivedSeriesOf cfg bars hne] at hr
    have hb : 0 < bars.length := List.length_pos.mpr hne
    cases hr
    have : ¬ (cfg.maDaysLong ≤ bars.length - 1 + 1) := by omega
    simp [passesTrend, mkSnapshot, derivedRowAt, rollingAt, this]

/-- C4 witness: a one-bar ticker (below the two-bar MA window of
smallConfig) passes the trend test, and with the toggle off the stage is
the identity. -/
theorem trendStage_spec_witness :
    passesTrend (mkSnapshot "A" (derivedRowAt smallConfig [bar0] 0) ⟨"A", "NYSE", "Stock", none, none⟩) = true ∧
    trendStage { smallConfig with useMa200Filter := false } [snapX] = [snapX] :=
  ⟨(trendStage_spec smallConfig [] snapX "A" [bar0] ⟨"A", "NYSE", "Stock", none, none⟩).2.2
      (by simp) (by decide) _ (getLast?_derivedSeriesOf smallConfig [bar0] (by simp)),
    (trendStage_spec { smallConfig with useMa200Filter := false } [snapX] snapX "A" [bar0]
      ⟨"A", "NYSE", "Stock", none, none⟩).2.1 rfl⟩

/-- C9.  A load failure ends the run at once: the failure message is
surfaced unprocessed, and no results and no export are produced. -/
theorem load_failure_aborts_run (cfg : ScanConfig) (e : String) :
    run_scan cfg (Except.error e) = ScanOutcome.loadFailure e ∧
    resultsOf (run_scan cfg (Except.error e)) = [] ∧
    watchlistOf (run_scan cfg (Except.error e)) = none :=
  ⟨rfl, rfl, rfl⟩

/-- C10.  A snapshot with no sector and no industry is kept by the
categorical-exclusion stage whatever the configured exclusion lists. -/
theorem categoricalStage_keeps_unclassified (cfg : ScanConfig) (l : List Snapshot)
    (s : Snapshot) (hs : s.sector = none) (hi : s.industry = none) :
    s ∈ categoricalStage cfg l ↔ s ∈ l := by
  unfold categoricalStage
  split <;> split <;> simp [List.mem_filter, optIn, hs, hi]

/-- C10 witness: the unclassified fund snapshot survives the default
exclusion lists. -/
theorem categoricalStage_keeps_unclassified_witness :
    snapY ∈ categoricalStage defaultConfig [snapY] :=
  (categoricalStage_keeps_unclassified defaultConfig [snapY] snapY rfl rfl).mpr
    (List.mem_singleton_self snapY)

/-- rollingAt_rollingSpec: one pandas rolling computation meets the
insufficient-history contract at every in-range row. -/
theorem rollingAt_rollingSpec (w : Nat) (f : List ℚ → ℚ) (xs : List ℚ) (i : Nat) :
    rollingSpec w xs i f (rollingAt w f xs i) := by
  constructor
  · unfold rollingAt
    split <;> simp <;> omega
  · intro hw
    have hwin : i + 1 - (i + 1 - w) = w := by omega
    unfold rollingAt windowSlice
    rw [if_pos hw, List.drop_take, hwin]

/-- C2.  At every row i of the derived series of a ticker, each of the six
rolling metrics is missing exactly when the row has fewer bars than its
window, never zero and never a short-window figure, and with a full window
it equals the statistic of the trailing window: the mean of close over
maDaysLong, the mean of dollar_volume over avgVolDays, the average daily
range percentage over adrDays, and the rise of close over the minimum low
of each gain window. -/
theorem rolling_metrics_insufficient_history (cfg : ScanConfig) (bars : List Bar) (i : Nat)
    (h : i < bars.length) :
    (derivedSeriesOf cfg bars)[i]? = some (derivedRowAt cfg bars i) ∧
    rollingSpec cfg.maDaysLong (closes bars) i
      (fun w => w.sum / (cfg.maDaysLong : ℚ)) ((derivedRowAt cfg bars i).ma200) ∧
    rollingSpec cfg.avgVolDays (dollarVolumes bars) i
      (fun w => w.sum / (cfg.avgVolDays : ℚ)) ((derivedRowAt cfg bars i).avg_dollar_volume) ∧
    rollingSpec cfg.adrDays (rangeFactors bars) i
      (fun w => (w.sum / (cfg.adrDays : ℚ) - 1) * 100) ((derivedRowAt cfg bars i).adr_percent) ∧
    rollingSpec cfg.gainDays1m (lows bars) i
      (fun w => ((closes bars).getD i 0 / listMin w - 1) * 100) ((derivedRowAt cfg bars i).gain_1m) ∧
    rollingSpec cfg.gainDays3m (lows bars) i
      (fun w => ((closes bars).getD i 0 / listMin w - 1) * 100) ((derivedRowAt cfg bars i).gain_3m) ∧
    rollingSpec cfg.gainDays6m (lows bars) i
      (fun w => ((closes bars).getD i 0 / listMin w - 1) * 100) ((derivedRowAt cfg bars i).gain_6m) := by
  refine ⟨?_, rollingAt_rollingSpec _ _ _ _, rollingAt_rollingSpec _ _ _ _,
    rollingAt_rollingSpec _ _ _ _, rollingAt_rollingSpec _ _ _ _,
    rollingAt_rollingSpec _ _ _ _, rollingAt_rollingSpec _ _ _ _⟩
  unfold derivedSeriesOf
  rw [List.getElem?_map, List.getElem?_range h]
  rfl

set_option maxRecDepth 8000 in
/-- C2 witness: on the concrete two-bar history, row 0 is one bar short of
the two-bar MA window, so ma200 is missing there, while the one-bar
avg_dollar_volume window is already full at row 0. -/
theorem rolling_metrics_insufficient_history_witness :
    rollingSpec smallConfig.maDaysLong (closes bars2) 0
      (fun w => w.sum / (smallConfig.maDaysLong : ℚ)) ((derivedRowAt smallConfig bars2 0).ma200) ∧
    (derivedRowAt smallConfig bars2 0).ma200 = none ∧
    (derivedRowAt smallConfig bars2 0).avg_dollar_volume = some 800 :=
  ⟨(rolling_metrics_insufficient_history smallConfig bars2 0 (by decide)).2.1,
    by with_unfolding_all rfl, by with_unfolding_all decide⟩

/-- C8.  An empty hard-threshold stage is not an error: every ending of the
run on such data carries an empty result and no export, and when the
database itself is nonempty the run ends at the dedicated
no-stocks-passed report, skipping thresholds and ranking; the exporter on
an empty result writes nothing. -/
theorem empty_filter_empty_result (cfg : ScanConfig) (data : StoreData)
    (h : hardThresholdStage cfg (snapshots cfg data.history data.profiles) = []) :
    resultsOf (run_scan cfg (Except.ok data)) = [] ∧
    watchlistOf (run_scan cfg (Except.ok data)) = none ∧
    (data.history.all (fun g => g.2.isEmpty) = false →
      run_scan cfg (Except.ok data) = ScanOutcome.noStocksPassedFilters) ∧
    generate_tradingview_watchlist [] = none := by
  have e1 : run_scan cfg (Except.ok data) =
      if data.history.all (fun g => g.2.isEmpty) then ScanOutcome.emptyDatabase
      else ScanOutcome.noStocksPassedFilters := by
    simp only [run_scan, h, List.isEmpty_nil, if_true]
  refine ⟨?_, ?_, fun hdb => ?_, rfl⟩
  · rw [e1]; split <;> rfl
  · rw [e1]; split <;> rfl
  · rw [e1]; simp [hdb]

/-- C8 witness: a one-ticker database with no profile rows yields an empty
merge, so the run ends at the no-stocks-passed report with no export. -/
theorem empty_filter_empty_result_witness :
    run_scan defaultConfig (Except.ok ⟨[("A", [bar0])], []⟩) = ScanOutcome.noStocksPassedFilters ∧
    generate_tradingview_watchlist [] = none :=
  ⟨(empty_filter_empty_result defaultConfig ⟨[("A", [bar0])], []⟩ rfl).2.2.1 rfl,
    (empty_filter_empty_result defaultConfig ⟨[("A", [bar0])], []⟩ rfl).2.2.2⟩

/-- countP_mergeOnTicker: the inner merge contributes, for each ticker t,
one snapshot per (latest row of t, profile row of t) pair. -/
theorem countP_mergeOnTicker (profiles : List TickerProfile)
    (lrs : List (String × DerivedRow)) (t : String) :
    (mergeOnTicker profiles lrs).countP (fun s => s.ticker == t) =
      (lrs.countP (fun tr => tr.1 == t)) * (profiles.countP (fun p => p.ticker == t)) := by
  induction lrs with
  | nil => simp [mergeOnTicker]
  | cons tr rest ih =>
      rw [mergeOnTicker, List.countP_append, ih, List.countP_cons, List.countP_map]
      have hcomp : (fun s => s.ticker == t) ∘ mkSnapshot tr.1 tr.2 = fun _ => tr.1 == t := by
        funext p; rfl
      rw [hcomp]
      rcases hb : tr.1 == t with _ | _
      · simp [List.countP_false, hb, Nat.add_mul]
      · have ht : tr.1 = t := by simpa using hb
        subst ht
        rw [List.countP_true, ← List.countP_eq_length_filter]
        simp [Nat.add_mul, Nat.add_comm]

/-- countP_latestRows: groupby(ticker).last() contributes one latest row
per ticker group with at least one bar. -/
theorem countP_latestRows (cfg : ScanConfig) (history : List (String × List Bar)) (t : String) :
    (latestRows cfg history).countP (fun tr => tr.1 == t) =
      history.countP (fun g => g.1 == t && !(g.2.isEmpty)) := by
  induction history with
  | nil => simp [latestRows]
  | cons g rest ih =>
      rcases g with ⟨tk, bs⟩
      cases bs with
      | nil =>
          rw [latestRows, List.filterMap_cons]
          rw [latestRows] at ih
          simp only [show (derivedSeriesOf cfg ([] : List Bar)).getLast? = none from rfl,
            Option.map_none']
          rw [ih, List.countP_cons]
          simp
      | cons b bs2 =>
          have hlast := getLast?_derivedSeriesOf cfg (b :: bs2) (by simp)
          rw [latestRows, List.filterMap_cons]
          rw [latestRows] at ih
          simp only [hlast, Option.map_some']
          rw [List.countP_cons, ih, List.countP_cons]
          simp

/-- C5 as the code has it: for every ticker t, the snapshot set handed to
the filter holds exactly g times k snapshots with ticker t, where g is the
number of bar groups of t with at least one bar and k the number of
profile rows of t.  With one bar group and one profile row per ticker this
is exactly one snapshot; with bars but no profile row it is none. -/
theorem snapshots_multiplicity (cfg : ScanConfig) (history : List (String × List Bar))
    (profiles : List TickerProfile) (t : String) :
    (snapshots cfg history profiles).countP (fun s => s.ticker == t) =
      (history.countP (fun g => g.1 == t && !(g.2.isEmpty))) *
        (profiles.countP (fun p => p.ticker == t)) := by
  rw [snapshots, countP_mergeOnTicker, countP_latestRows]

/-- C5 counterexample: ticker A has one bar, but with no profile row the
inner merge drops it: the snapshot set holds no snapshot for A instead of
exactly one. -/
theorem snapshots_missing_profile_cex :
    (snapshots defaultConfig [("A", [bar0])] []).countP (fun s => s.ticker == "A") = 0 ∧
    ([("A", [bar0])].countP (fun g => g.1 == "A" && !(g.2.isEmpty))) = 1 :=
  ⟨by with_unfolding_all rfl, by with_unfolding_all rfl⟩

/-- joinC_cons: joining a nonempty tail inserts one comma after the head. -/
theorem joinC_cons (x : String) (ys : List String) (h : ys ≠ []) :
    joinC (x :: ys) = x ++ "," ++ joinC ys := by
  cases ys with
  | nil => exact absurd rfl h
  | cons y t => rfl

/-- joinC_append: joining two nonempty token lists joins each and puts one
comma between them. -/
theorem joinC_append (xs ys : List String) (hx : xs ≠ []) (hy : ys ≠ []) :
    joinC (xs ++ ys) = joinC xs ++ "," ++ joinC ys := by
  induction xs with
  | nil => exact absurd rfl hx
  | cons a t ih =>
      cases t with
      | nil => simpa using joinC_cons a ys hy
      | cons b t2 =>
          rw [List.cons_append, joinC_cons a ((b :: t2) ++ ys) (by simp),
            ih (by simp), joinC_cons a (b :: t2) (by simp)]
          simp [String.append_assoc]

/-- joinC_grouped: joining pre-joined nonempty groups equals joining the
flattened token lists, one comma everywhere. -/
theorem joinC_grouped (keys : List String) (d : String → String) (f : String → List String)
    (h : ∀ k ∈ keys, f k ≠ []) :
    joinC (keys.map (fun k => d k ++ "," ++ joinC (f k))) =
      joinC (keys.flatMap (fun k => d k :: f k)) := by
  induction keys with
  | nil => rfl
  | cons k rest ih =>
      have hk : f k ≠ [] := h k (List.mem_cons_self k rest)
      have hrest : ∀ k2 ∈ rest, f k2 ≠ [] := fun k2 hm => h k2 (List.mem_cons_of_mem _ hm)
      rw [List.map_cons, List.flatMap_cons]
      cases rest with
      | nil =>
          simp only [List.map_nil, List.flatMap_nil, List.append_nil]
          rw [joinC, joinC_cons (d k) (f k) hk]
      | cons k2 rest2 =>
          have hne : (List.map (fun k => d k ++ "," ++ joinC (f k)) (k2 :: rest2)) ≠ [] := by simp
          have hfm : ((k2 :: rest2).flatMap (fun k => d k :: f k)) ≠ [] := by
            rw [List.flatMap_cons]
            simp
          rw [joinC_cons _ _ hne, ih hrest, joinC_append (d k :: f k) _ (by simp) hfm,
            joinC_cons (d k) (f k) hk]

/-- mem_dedupKeys_sub: a deduplicated key comes from the original list. -/
theorem mem_dedupKeys_sub (x : String) (xs : List String) :
    ∀ seen, x ∈ dedupKeys seen xs → x ∈ xs := by
  induction xs with
  | nil => intro seen h; simp [dedupKeys] at h
  | cons a t ih =>
      intro seen h
      rw [dedupKeys] at h
      split at h
      · exact List.mem_cons_of_mem a (ih _ h)
      · rcases List.mem_cons.mp h with h1 | h1
        · exact h1 ▸ List.mem_cons_self a t
        · exact List.mem_cons_of_mem a (ih _ h1)

/-- filter_nonempty_of_mem_assetClasses: every group key of the export has
at least one entry. -/
theorem filter_nonempty_of_mem_assetClasses (l : List Snapshot) (ac : String)
    (h : ac ∈ assetClasses l) : (l.filter (fun s => s.asset_class == ac)) ≠ [] := by
  have h1 : ac ∈ dedupKeys [] (l.map (fun s => s.asset_class)) :=
    (List.perm_insertionSort _ _).mem_iff.mp h
  have h2 : ac ∈ l.map (fun s => s.asset_class) := mem_dedupKeys_sub _ _ _ h1
  obtain ⟨s, hs, hac⟩ := List.mem_map.mp h2
  exact List.ne_nil_of_mem (List.mem_filter.mpr ⟨hs, by simp [hac]⟩)

/-- C6 (amended).  The exporter follows the grouping contract with the
groups in ascending asset class order: it equals the spec-side export that
emits, per asset class in ascending order, the ###<asset_class>s delimiter
token followed by the exchange:ticker entries of that class, all joined
with commas; in particular the (NASDAQ, Stock) X and (AMEX, Fund) Y result
exports with the Funds group first. -/
theorem watchlist_export_spec (l : List Snapshot) :
    generate_tradingview_watchlist l = specWatchlistLine l ∧
    generate_tradingview_watchlist [snapX, snapY] =
      some "###Funds,AMEX:Y,###Stocks,NASDAQ:X" := by
  constructor
  · unfold generate_tradingview_watchlist specWatchlistLine
    split
    · rfl
    · congr 1
      unfold watchlistString watchlistParts specWatchlistTokens
      exact joinC_grouped (assetClasses l) (fun ac => "###" ++ ac ++ "s")
        (fun ac => (l.filter (fun s => s.asset_class == ac)).map formatEntry)
        (fun k hk hmap =>
          filter_nonempty_of_mem_assetClasses l k hk (by simpa using hmap))
  · decide

/-- C6 counterexample: the exporter emits groups in ascending asset class
order (groupby sorts its keys), so the (NASDAQ, Stock) X and (AMEX, Fund)
Y result exports with the Funds group first, not the Stocks group. -/
theorem watchlist_group_order_cex :
    generate_tradingview_watchlist [snapX, snapY] ≠ some "###Stocks,NASDAQ:X,###Funds,AMEX:Y" ∧
    generate_tradingview_watchlist [snapX, snapY] = some "###Funds,AMEX:Y,###Stocks,NASDAQ:X" :=
  ⟨by decide, by decide⟩

/-- floorNat agrees with the integer floor on nonnegative rationals. -/
theorem floorNat_eq_floor (q : ℚ) (h0 : 0 ≤ q) : (floorNat q : ℤ) = ⌊q⌋ := by
  unfold floorNat
  rw [← Rat.floor_def]
  exact Int.toNat_of_nonneg (Int.floor_nonneg.mpr h0)

/-- floorNat is below its argument on nonnegative rationals. -/
theorem floorNat_cast_le (q : ℚ) (h0 : 0 ≤ q) : (floorNat q : ℚ) ≤ q := by
  have h1 : ((floorNat q : ℤ) : ℚ) = ((⌊q⌋ : ℤ) : ℚ) := by rw [floorNat_eq_floor q h0]
  push_cast at h1
  rw [h1]
  exact Int.floor_le q

/-- a nonnegative rational is below its floorNat plus one. -/
theorem lt_floorNat_add_one (q : ℚ) (h0 : 0 ≤ q) : q < (floorNat q : ℚ) + 1 := by
  have h1 : ((floorNat q : ℤ) : ℚ) = ((⌊q⌋ : ℤ) : ℚ) := by rw [floorNat_eq_floor q h0]
  push_cast at h1
  rw [h1]
  exact Int.lt_floor_add_one q

/-- floorNat is monotone from nonnegative rationals up. -/
theorem floorNat_mono {a b : ℚ} (h0 : 0 ≤ a) (hab : a ≤ b) : floorNat a ≤ floorNat b := by
  have := Int.floor_mono hab
  have ha := floorNat_eq_floor a h0
  have hb := floorNat_eq_floor b (le_trans h0 hab)
  omega

/-- vAt is monotone on a sorted list. -/
theorem vAt_mono {v : List ℚ} (hs : List.Sorted (fun a b : ℚ => a ≤ b) v) (hv : v ≠ [])
    {i j : Nat} (hij : i ≤ j) : vAt v i ≤ vAt v j := by
  have hn : 0 < v.length := List.length_pos.mpr hv
  have h1 : min i (v.length - 1) < v.length := by omega
  have h2 : min j (v.length - 1) < v.length := by omega
  unfold vAt
  rw [List.getD_eq_getElem v 0 h1, List.getD_eq_getElem v 0 h2]
  have hrel := hs.rel_get_of_le (a := ⟨min i (v.length - 1), h1⟩)
    (b := ⟨min j (v.length - 1), h2⟩) (by simp [Fin.le_def]; omega)
  simpa [List.get_eq_getElem] using hrel

/-- interp is bounded below by the value at the floor position. -/
theorem interp_lower {v : List ℚ} (hs : List.Sorted (fun a b : ℚ => a ≤ b) v) (hv : v ≠ [])
    {h : ℚ} (h0 : 0 ≤ h) : vAt v (floorNat h) ≤ interp v h := by
  have hfrac : 0 ≤ h - (floorNat h : ℚ) := sub_nonneg.mpr (floorNat_cast_le h h0)
  have hba : vAt v (floorNat h) ≤ vAt v (floorNat h + 1) := vAt_mono hs hv (Nat.le_succ _)
  have := mul_nonneg hfrac (sub_nonneg.mpr hba)
  unfold interp
  linarith

/-- interp is bounded above by the value one past the floor position. -/
theorem interp_upper {v : List ℚ} (hs : List.Sorted (fun a b : ℚ => a ≤ b) v) (hv : v ≠ [])
    {h : ℚ} (h0 : 0 ≤ h) : interp v h ≤ vAt v (floorNat h + 1) := by
  have hfrac : h - (floorNat h : ℚ) ≤ 1 := by
    have := lt_floorNat_add_one h h0
    linarith
  have hba : vAt v (floorNat h) ≤ vAt v (floorNat h + 1) := vAt_mono hs hv (Nat.le_succ _)
  have key := mul_nonneg (by linarith : (0:ℚ) ≤ 1 - (h - (floorNat h : ℚ)))
    (sub_nonneg.mpr hba)
  unfold interp
  nlinarith

/-- interp is monotone in the position on a sorted list. -/
theorem interp_mono {v : List ℚ} (hs : List.Sorted (fun a b : ℚ => a ≤ b) v) (hv : v ≠ [])
    {h1 h2 : ℚ} (h0 : 0 ≤ h1) (h12 : h1 ≤ h2) : interp v h1 ≤ interp v h2 := by
  have h20 : 0 ≤ h2 := le_trans h0 h12
  have hlo : floorNat h1 ≤ floorNat h2 := floorNat_mono h0 h12
  rcases Nat.eq_or_lt_of_le hlo with heq | hlt
  · unfold interp
    rw [← heq]
    have hba : vAt v (floorNat h1) ≤ vAt v (floorNat h1 + 1) := vAt_mono hs hv (Nat.le_succ _)
    nlinarith [mul_le_mul_of_nonneg_right h12 (sub_nonneg.mpr hba)]
  · calc interp v h1 ≤ vAt v (floorNat h1 + 1) := interp_upper hs hv h0
      _ ≤ vAt v (floorNat h2) := vAt_mono hs hv hlt
      _ ≤ interp v h2 := interp_lower hs hv h20

/-- quantile_mono: on a fixed list of defined values, the quantile
threshold does not fall as the percentile rises. -/
theorem quantile_mono (xs : List ℚ) {p1 p2 : ℚ} (h0 : 0 ≤ p1) (h12 : p1 ≤ p2) :
    ∀ t2, quantile xs p2 = some t2 → ∃ t1, quantile xs p1 = some t1 ∧ t1 ≤ t2 := by
  intro t2 ht2
  unfold quantile at ht2 ⊢
  rcases hxs : xs.isEmpty with _ | _
  · simp only [hxs, Bool.false_eq_true, if_false] at ht2 ⊢
    refine ⟨_, rfl, ?_⟩
    have hne : xs ≠ [] := by
      cases xs with
      | nil => simp at hxs
      | cons a t => simp
    have hsv : sortedAsc xs ≠ [] := by
      unfold sortedAsc
      intro hc
      have hlen := (List.perm_insertionSort (fun a b : ℚ => a ≤ b) xs).length_eq
      rw [hc] at hlen
      exact hne (List.length_eq_zero.mp hlen.symm)
    have hsorted : List.Sorted (fun a b : ℚ => a ≤ b) (sortedAsc xs) :=
      List.sorted_insertionSort _ xs
    have hn1 : (0:ℚ) ≤ (xs.length : ℚ) - 1 := by
      have : xs.length ≠ 0 := fun hc => hne (List.length_eq_zero.mp hc)
      have : (1:ℚ) ≤ (xs.length : ℚ) := by exact_mod_cast Nat.one_le_iff_ne_zero.mpr this
      linarith
    have hh0 : 0 ≤ p1 * ((xs.length : ℚ) - 1) := mul_nonneg h0 hn1
    have hhm : p1 * ((xs.length : ℚ) - 1) ≤ p2 * ((xs.length : ℚ) - 1) :=
      mul_le_mul_of_nonneg_right h12 hn1
    have := interp_mono hsorted hsv hh0 hhm
    injection ht2 with ht2
    rw [← ht2]
    exact this
  · simp only [hxs, if_true] at ht2
    cases ht2

/-- C7.  Raising the 1-month percentile never enlarges the 1-month
qualifier set: for percentiles p1 at most p2 in the unit interval, every
snapshot qualifying at the p2 threshold qualifies at the p1 threshold, so
the qualifier count at p2 is at most the count at p1. -/
theorem qualifiers_antitone_in_percentile (l : List Snapshot) (p1 p2 : ℚ)
    (h0 : 0 ≤ p1) (h12 : p1 ≤ p2) (h21 : p2 ≤ 1) :
    (∀ s, s ∈ topGainers (fun s => s.gain_1m) (horizonThreshold (fun s => s.gain_1m) p2 l) l →
        s ∈ topGainers (fun s => s.gain_1m) (horizonThreshold (fun s => s.gain_1m) p1 l) l) ∧
    (topGainers (fun s => s.gain_1m) (horizonThreshold (fun s => s.gain_1m) p2 l) l).length ≤
      (topGainers (fun s => s.gain_1m) (horizonThreshold (fun s => s.gain_1m) p1 l) l).length := by
  have key : ∀ s : Snapshot,
      qualifies s.gain_1m (horizonThreshold (fun s => s.gain_1m) p2 l) = true →
      qualifies s.gain_1m (horizonThreshold (fun s => s.gain_1m) p1 l) = true := by
    intro s hq
    rcases hg : s.gain_1m with _ | g
    · rw [hg] at hq
      simp [qualifies] at hq
    · rcases ht2 : horizonThreshold (fun s => s.gain_1m) p2 l with _ | t2
      · rw [hg, ht2] at hq
        simp [qualifies] at hq
      · have ht2q : quantile (l.filterMap (fun s => s.gain_1m)) p2 = some t2 := ht2
        obtain ⟨t1, ht1, hle⟩ :=
          quantile_mono (l.filterMap (fun s => s.gain_1m)) h0 h12 t2 ht2q
        rw [hg, ht2] at hq
        simp only [qualifies, decide_eq_true_iff] at hq
        have ht1q : horizonThreshold (fun s => s.gain_1m) p1 l = some t1 := ht1
        rw [ht1q]
        simp only [qualifies, decide_eq_true_iff]
        linarith
  refine ⟨fun s hs => ?_, ?_⟩
  · obtain ⟨hmem, hq⟩ := List.mem_filter.mp hs
    exact List.mem_filter.mpr ⟨hmem, key s hq⟩
  · exact (List.monotone_filter_right l (fun a => key a)).length_le

set_option maxRecDepth 8000 in
/-- C7 witness: on a one-snapshot filtered set the qualifier count at the
0.6 percentile is at most the count at the 0.5 percentile, and is exactly
one. -/
theorem qualifiers_antitone_in_percentile_witness :
    (topGainers (fun s => s.gain_1m) (horizonThreshold (fun s => s.gain_1m) (3/5) [snapX]) [snapX]).length ≤
      (topGainers (fun s => s.gain_1m) (horizonThreshold (fun s => s.gain_1m) (1/2) [snapX]) [snapX]).length ∧
    (topGainers (fun s => s.gain_1m) (horizonThreshold (fun s => s.gain_1m) (3/5) [snapX]) [snapX]).length = 1 :=
  ⟨(qualifiers_antitone_in_percentile [snapX] (1/2) (3/5) (by with_unfolding_all decide)
      (by with_unfolding_all decide) (by with_unfolding_all decide)).2,
    by with_unfolding_all decide⟩

/-- mem_dedupByTicker: deduplication only drops rows. -/
theorem mem_dedupByTicker (r : Snapshot) (l : List Snapshot) :
    ∀ seen, r ∈ dedupByTicker seen l → r ∈ l := by
  induction l with
  | nil => intro seen h; simp [dedupByTicker] at h
  | cons a rest ih =>
      intro seen h
      rw [dedupByTicker] at h
      split at h
      · exact List.mem_cons_of_mem a (ih _ h)
      · rcases List.mem_cons.mp h with h1 | h1
        · exact h1 ▸ List.mem_cons_self a rest
        · exact List.mem_cons_of_mem a (ih _ h1)

/-- dedupByTicker_covers: every ticker of the input not yet seen keeps a
representative row. -/
theorem dedupByTicker_covers (s : Snapshot) (l : List Snapshot) :
    ∀ seen, s ∈ l → s.ticker ∉ seen → ∃ r ∈ dedupByTicker seen l, r.ticker = s.ticker := by
  induction l with
  | nil => intro seen h _; simp at h
  | cons a rest ih =>
      intro seen hmem hseen
      rw [dedupByTicker]
      split
      case isTrue hin =>
        rcases List.mem_cons.mp hmem with h1 | h1
        · subst h1; exact absurd hin hseen
        · exact ih seen h1 hseen
      case isFalse hin =>
        by_cases hts : s.ticker = a.ticker
        · exact ⟨a, List.mem_cons_self _ _, hts.symm⟩
        · rcases List.mem_cons.mp hmem with h1 | h1
          · exact absurd (congrArg Snapshot.ticker h1) hts
          · obtain ⟨r, hr, hrt⟩ := ih (a.ticker :: seen) h1 (by
              intro hc
              rcases List.mem_cons.mp hc with hc1 | hc1
              · exact hts hc1
              · exact hseen hc1)
            exact ⟨r, List.mem_cons_of_mem a hr, hrt⟩

/-- dedupByTicker_nodup: the kept rows have pairwise distinct tickers, none
of them already seen. -/
theorem dedupByTicker_nodup (l : List Snapshot) :
    ∀ seen, ((dedupByTicker seen l).map (fun s => s.ticker)).Nodup ∧
      ∀ r ∈ dedupByTicker seen l, r.ticker ∉ seen := by
  induction l with
  | nil => intro seen; simp [dedupByTicker]
  | cons a rest ih =>
      intro seen
      rw [dedupByTicker]
      split
      case isTrue hin => exact ih seen
      case isFalse hin =>
        obtain ⟨hnd, hall⟩ := ih (a.ticker :: seen)
        refine ⟨?_, ?_⟩
        · rw [List.map_cons, List.nodup_cons]
          refine ⟨fun hc => ?_, hnd⟩
          obtain ⟨r, hr, hrt⟩ := List.mem_map.mp hc
          exact hall r hr (by rw [hrt]; exact List.mem_cons_self _ _)
        · intro r hr
          rcases List.mem_cons.mp hr with h1 | h1
          · rw [h1]; exact hin
          · intro hc
            exact hall r h1 (List.mem_cons_of_mem _ hc)

instance : IsTotal Snapshot gainOrder := ⟨by
  intro a b
  unfold gainOrder gainLe
  rcases a.gain_1m with _ | u <;> rcases b.gain_1m with _ | v <;> simp
  exact le_total v u⟩

instance : IsTrans Snapshot gainOrder := ⟨by
  intro a b c
  unfold gainOrder gainLe
  rcases a.gain_1m with _ | u <;> rcases b.gain_1m with _ | v <;>
    rcases c.gain_1m with _ | w <;> simp
  exact fun hab hbc => le_trans hbc hab⟩

/-- qualifies_iff_specQual: the embedded NaN-aware qualification test
matches the spec-side reading of qualification. -/
theorem qualifies_iff_specQual (get : Snapshot → Option ℚ) (p : ℚ) (l : List Snapshot)
    (s : Snapshot) :
    qualifies (get s) (horizonThreshold get p l) = true ↔ specQual get p l s := by
  unfold specQual
  rcases hg : get s with _ | g <;> rcases ht : horizonThreshold get p l with _ | t <;>
    simp [qualifies]

/-- C1.  The ranked result of the filtered set l holds exactly the
snapshots of l qualifying in at least one of the three horizons: every
result row is a qualifying row of l; every qualifying snapshot of l has a
representative of its ticker in the result; the result is ordered by
1-month gain descending (a missing 1-month gain ordering last); and its
tickers are pairwise distinct. -/
theorem rankResults_spec (cfg : ScanConfig) (l : List Snapshot) :
    (∀ s, s ∈ rankResults cfg l →
      s ∈ l ∧ (specQual (fun s => s.gain_1m) cfg.gainPercentile1m l s ∨
               specQual (fun s => s.gain_3m) cfg.gainPercentile3m l s ∨
               specQual (fun s => s.gain_6m) cfg.gainPercentile6m l s)) ∧
    (∀ s ∈ l, (specQual (fun s => s.gain_1m) cfg.gainPercentile1m l s ∨
               specQual (fun s => s.gain_3m) cfg.gainPercentile3m l s ∨
               specQual (fun s => s.gain_6m) cfg.gainPercentile6m l s) →
      ∃ r ∈ rankResults cfg l, r.ticker = s.ticker) ∧
    List.Sorted gainOrder (rankResults cfg l) ∧
    ((rankResults cfg l).map (fun s => s.ticker)).Nodup := by
  have hperm : List.Perm (rankResults cfg l) (dedupByTicker []
      (topGainers (fun s => s.gain_1m) (horizonThreshold (fun s => s.gain_1m) cfg.gainPercentile1m l) l ++
       topGainers (fun s => s.gain_3m) (horizonThreshold (fun s => s.gain_3m) cfg.gainPercentile3m l) l ++
       topGainers (fun s => s.gain_6m) (horizonThreshold (fun s => s.gain_6m) cfg.gainPercentile6m l) l)) :=
    List.perm_insertionSort _ _
  refine ⟨?_, ?_, ?_, ?_⟩
  · intro s hs
    have hsu := mem_dedupByTicker s _ [] (hperm.mem_iff.mp hs)
    rcases List.mem_append.mp hsu with h12 | h6
    · rcases List.mem_append.mp h12 with h1 | h3
      · obtain ⟨hmem, hq⟩ := List.mem_filter.mp h1
        exact ⟨hmem, Or.inl ((qualifies_iff_specQual _ _ _ _).mp hq)⟩
      · obtain ⟨hmem, hq⟩ := List.mem_filter.mp h3
        exact ⟨hmem, Or.inr (Or.inl ((qualifies_iff_specQual _ _ _ _).mp hq))⟩
    · obtain ⟨hmem, hq⟩ := List.mem_filter.mp h6
      exact ⟨hmem, Or.inr (Or.inr ((qualifies_iff_specQual _ _ _ _).mp hq))⟩
  · intro s hsl hq
    have hsu : s ∈
        (topGainers (fun s => s.gain_1m) (horizonThreshold (fun s => s.gain_1m) cfg.gainPercentile1m l) l ++
         topGainers (fun s => s.gain_3m) (horizonThreshold (fun s => s.gain_3m) cfg.gainPercentile3m l) l ++
         topGainers (fun s => s.gain_6m) (horizonThreshold (fun s => s.gain_6m) cfg.gainPercentile6m l) l) := by
      rcases hq with h1 | h3 | h6
      · exact List.mem_append_left _ (List.mem_append_left _
          (List.mem_filter.mpr ⟨hsl, (qualifies_iff_specQual _ _ _ _).mpr h1⟩))
      · exact List.mem_append_left _ (List.mem_append_right _
          (List.mem_filter.mpr ⟨hsl, (qualifies_iff_specQual _ _ _ _).mpr h3⟩))
      · exact List.mem_append_right _
          (List.mem_filter.mpr ⟨hsl, (qualifies_iff_specQual _ _ _ _).mpr h6⟩)
    obtain ⟨r, hr, hrt⟩ := dedupByTicker_covers s _ [] hsu (List.not_mem_nil _)
    exact ⟨r, hperm.mem_iff.mpr hr, hrt⟩
  · exact List.sorted_insertionSort _ _
  · exact ((hperm.map (fun s => s.ticker)).nodup_iff).mpr (dedupByTicker_nodup _ []).1
